import Mathlib

/-!
Verification development for the locale translation pipeline
(`translate_locales.py` of MSF-USA/chatbot-ui).

The Python source is shallowly embedded: dictionaries become association
lists preserving insertion order (Python dicts are insertion ordered),
filesystem state becomes an explicit record, the network provider becomes
an oracle indexed by attempt number, and float arithmetic in the two
length-ratio checks is modelled by exact rational arithmetic.
-/

namespace LocalePipeline

/-! ## Association lists modelling Python dicts -/

/-- First value bound to key `k`, modelling Python dict lookup. -/
def assocFind {κ ν : Type} [DecidableEq κ] (k : κ) : List (κ × ν) → Option ν
  | [] => none
  | p :: l => if p.1 = k then some p.2 else assocFind k l

/-- Python dict update `d[k] = f(old)`: an existing binding is updated in
place (its position is preserved); a new key is appended at the end.
This also models `defaultdict` mutation when `f` consumes the old value. -/
def assocSet {κ ν : Type} [DecidableEq κ] (l : List (κ × ν)) (k : κ) (f : Option ν → ν) :
    List (κ × ν) :=
  match assocFind k l with
  | some _ => l.map fun p => if p.1 = k then (p.1, f (some p.2)) else p
  | none => l ++ [(k, f none)]

theorem assocFind_append {κ ν : Type} [DecidableEq κ] (k : κ) (l₁ l₂ : List (κ × ν)) :
    assocFind k (l₁ ++ l₂) =
      match assocFind k l₁ with
      | some v => some v
      | none => assocFind k l₂ := by
  induction l₁ with
  | nil => simp [assocFind]
  | cons p l ih =>
    by_cases h : p.1 = k <;> simp [assocFind, h, ih]

theorem assocFind_map_set {κ ν : Type} [DecidableEq κ] (k : κ) (f : Option ν → ν)
    (l : List (κ × ν)) (v : ν) (h : assocFind k l = some v) :
    assocFind k (l.map fun p => if p.1 = k then (p.1, f (some p.2)) else p) =
      some (f (some v)) := by
  induction l with
  | nil => simp [assocFind] at h
  | cons p l ih =>
    by_cases hk : p.1 = k
    · simp [assocFind, hk] at h
      subst h
      simp [assocFind, hk]
    · simp [assocFind, hk] at h ⊢
      exact ih h

theorem assocFind_map_set_ne {κ ν : Type} [DecidableEq κ] (k k' : κ) (f : Option ν → ν)
    (l : List (κ × ν)) (hne : k' ≠ k) :
    assocFind k' (l.map fun p => if p.1 = k then (p.1, f (some p.2)) else p) =
      assocFind k' l := by
  induction l with
  | nil => simp [assocFind]
  | cons p l ih =>
    have h2 : ¬(k = k') := fun h => hne h.symm
    by_cases hk : p.1 = k
    · simp [assocFind, hk, h2, ih]
    · by_cases hk' : p.1 = k' <;> simp [assocFind, hk, hk', hne, ih]

theorem assocFind_assocSet_self {κ ν : Type} [DecidableEq κ] (l : List (κ × ν)) (k : κ)
    (f : Option ν → ν) :
    assocFind k (assocSet l k f) = some (f (assocFind k l)) := by
  unfold assocSet
  cases h : assocFind k l with
  | some v => simpa [h] using assocFind_map_set k f l v h
  | none =>
    rw [assocFind_append]
    simp [h, assocFind]

theorem assocFind_assocSet_ne {κ ν : Type} [DecidableEq κ] (l : List (κ × ν)) (k k' : κ)
    (f : Option ν → ν) (hne : k' ≠ k) :
    assocFind k' (assocSet l k f) = assocFind k' l := by
  unfold assocSet
  cases h : assocFind k l with
  | some v => exact assocFind_map_set_ne k k' f l hne
  | none =>
    rw [assocFind_append]
    have h2 : ¬(k = k') := fun h => hne h.symm
    cases h' : assocFind k' l <;> simp [assocFind, hne, h2]

/-! ## Data model -/

/-- Structure `TranslationTask` from the source: one unit of translation work. -/
structure TranslationTask where
  locale : String
  file_name : String
  key : String
  english_value : String
  is_missing : Bool
  deriving Repr, DecidableEq

/-- Structure `ValidationResult` from the source. -/
structure ValidationResult where
  is_valid : Bool
  errors : List String
  warnings : List String
  deriving Repr, DecidableEq

/-- Locale file contents: ordered key/value mapping (a Python dict). -/
abbrev LocaleData := List (String × String)

/-! ## Placeholder regex

`re.findall` / `re.sub` with the double-brace pattern (open-open, one or
more non-closing-brace characters, close-close) are embedded as an explicit
left-to-right scanner: at each position a match is attempted; on success
the scan resumes after the match, on failure at the next character.
The brace characters are written via `Char.ofNat`. -/

def lbrace : Char := Char.ofNat 123

def rbrace : Char := Char.ofNat 125

/-- One scanning pass of `re.findall` for the placeholder pattern.
`fuel` bounds recursion; `fuel = cs.length` always suffices. -/
def findPHAux : Nat → List Char → List String
  | 0, _ => []
  | _ + 1, [] => []
  | fuel + 1, c :: rest =>
    if c = lbrace then
      match rest with
      | [] => []
      | c2 :: rest2 =>
        if c2 = lbrace then
          let body := rest2.takeWhile fun d => d != rbrace
          let after := rest2.dropWhile fun d => d != rbrace
          if body.isEmpty then findPHAux fuel rest
          else
            match after with
            | d1 :: d2 :: rest3 =>
              if d1 = rbrace ∧ d2 = rbrace then
                String.mk (lbrace :: lbrace :: (body ++ [rbrace, rbrace])) :: findPHAux fuel rest3
              else findPHAux fuel rest
            | _ => findPHAux fuel rest
        else findPHAux fuel rest
    else findPHAux fuel rest

/-- Models `re.findall` of the double-brace placeholder pattern over a string. -/
def findPlaceholders (s : String) : List String :=
  findPHAux s.data.length s.data

/-- One scanning pass of `re.sub(pattern, empty, s)` for the placeholder
pattern: matched spans are dropped, other characters kept. -/
def stripPHAux : Nat → List Char → List Char
  | 0, l => l
  | _ + 1, [] => []
  | fuel + 1, c :: rest =>
    if c = lbrace then
      match rest with
      | [] => [c]
      | c2 :: rest2 =>
        if c2 = lbrace then
          let body := rest2.takeWhile fun d => d != rbrace
          let after := rest2.dropWhile fun d => d != rbrace
          if body.isEmpty then c :: stripPHAux fuel rest
          else
            match after with
            | d1 :: d2 :: rest3 =>
              if d1 = rbrace ∧ d2 = rbrace then stripPHAux fuel rest3
              else c :: stripPHAux fuel rest
            | _ => c :: stripPHAux fuel rest
        else c :: stripPHAux fuel rest
    else c :: stripPHAux fuel rest

/-- Remove every placeholder match from a string (`re.sub` with empty
replacement). -/
def stripPlaceholders (s : String) : String :=
  String.mk (stripPHAux s.data.length s.data)

/-! ## TranslationValidator -/

def missingPlaceholderMsg (p : String) : String :=
  "Missing placeholder " ++ p ++ " in translation"

def extraPlaceholderMsg (p : String) : String :=
  "Extra placeholder " ++ p ++ " in translation"

/-- Models `TranslationValidator.validate_placeholders`: one pass over the source
placeholders flagging the missing ones as errors (invalidating), one pass
over the translation placeholders flagging the extra ones as warnings. -/
def validate_placeholders (original translated : String) : ValidationResult :=
  let original_placeholders := findPlaceholders original
  let translated_placeholders := findPlaceholders translated
  let afterMissing := original_placeholders.foldl
    (fun r p =>
      if p ∈ translated_placeholders then r
      else { r with is_valid := false, errors := r.errors ++ [missingPlaceholderMsg p] })
    ⟨true, [], []⟩
  translated_placeholders.foldl
    (fun r p =>
      if p ∈ original_placeholders then r
      else { r with warnings := r.warnings ++ [extraPlaceholderMsg p] })
    afterMissing

/-- Two-decimal rendering of the length ratio inside the warning message.
Models the Python float `.2f` formatting by rounding the exact rational;
no claim below depends on this text. -/
def ratioTwoDecimals (q : ℚ) : String :=
  let c : Int := (q * 100 + 1 / 2).floor
  toString (c / 100) ++ "." ++
    (let r := (c % 100).toNat
     (if r < 10 then "0" else "") ++ toString r)

def lengthWarningMsg (ratio : ℚ) (olen tlen : Nat) : String :=
  "Translation length ratio " ++ ratioTwoDecimals ratio ++ " may be unusual (original: " ++
    toString olen ++ " chars, translated: " ++ toString tlen ++ " chars)"

/-- Models `TranslationValidator.validate_length`. Float division and comparison
are modelled by exact rational arithmetic. -/
def validate_length (original translated : String) (tolerance : ℚ := 3) : ValidationResult :=
  if original.length = 0 then ⟨true, [], []⟩
  else
    let ratio : ℚ := (translated.length : ℚ) / (original.length : ℚ)
    let tol : ℚ := if original.length ≤ 5 then 5 else tolerance
    if ratio < 1 / tol ∨ ratio > tol then
      ⟨true, [], [lengthWarningMsg ratio original.length translated.length]⟩
    else ⟨true, [], []⟩

/-- The fixed allow-list of technical terms. The Python source holds these
in a set whose iteration order is unspecified; the embedding fixes the
written order (no claim depends on the order). -/
def technical_terms : List String :=
  ["API", "URL", "JSON", "HTML", "HTTP", "HTTPS", "ID", "UI", "OpenAI", "ChatGPT"]

def non_latin_scripts : List String :=
  ["zh", "ja", "ko", "ar", "he", "hi", "th", "my", "si", "bn", "te", "ur", "am", "fa"]

def isLatinLetter (c : Char) : Bool :=
  ('a' ≤ c && c ≤ 'z') || ('A' ≤ c && c ≤ 'Z')

/-- Python regex whitespace; the ASCII whitespace characters (the Unicode
extras Python also matches are irrelevant to every claim below). -/
def pyIsSpace (c : Char) : Bool :=
  c = ' ' || c = '\t' || c = '\n' || c = '\r' || c = Char.ofNat 11 || c = Char.ofNat 12

def englishRemnantsMsg (latin total : Nat) : String :=
  "Translation may contain untranslated English text (" ++ toString latin ++ "/" ++
    toString total ++ " Latin characters)"

/-- Models `TranslationValidator.validate_no_english_remnants`. The `original`
argument is unused, exactly as in the source. -/
def validate_no_english_remnants (original translated locale : String) : ValidationResult :=
  if locale ∈ non_latin_scripts then
    let check_text := technical_terms.foldl (fun s term => s.replace term "") translated
    let check_text := stripPlaceholders check_text
    let latin_chars := (check_text.data.filter isLatinLetter).length
    let total_chars := (check_text.data.filter fun c => !pyIsSpace c).length
    if total_chars > 0 ∧ (latin_chars : ℚ) / (total_chars : ℚ) > 0.3 then
      ⟨true, [], [englishRemnantsMsg latin_chars total_chars]⟩
    else ⟨true, [], []⟩
  else ⟨true, [], []⟩

/-- Models `TranslationValidator.validate_translation`: run the three checks and
fold them into one combined result (validity is and-ed, errors and
warnings are concatenated in check order). -/
def validate_translation (task : TranslationTask) (translated : String) : ValidationResult :=
  let results := [
    validate_placeholders task.english_value translated,
    validate_length task.english_value translated,
    validate_no_english_remnants task.english_value translated task.locale]
  results.foldl
    (fun combined r =>
      { is_valid := combined.is_valid && r.is_valid,
        errors := combined.errors ++ r.errors,
        warnings := combined.warnings ++ r.warnings })
    ⟨true, [], []⟩

/-! ## LocaleAnalyzer -/

/-- The filesystem and loaded reference data seen by `LocaleAnalyzer`:
`dirs` lists the existing locale directories, `files` the existing locale
files keyed by (locale, file name), and `englishData` the loaded English
reference (file name, ordered key/value data), `terms.json` excluded by
the loader. -/
structure LocaleFS where
  dirs : List String
  files : List ((String × String) × LocaleData)
  englishData : List (String × LocaleData)
  deriving Repr

def mkTask (locale fileName key value : String) (missing : Bool) : TranslationTask :=
  ⟨locale, fileName, key, value, missing⟩

@[simp] theorem mkTask_file_name (locale fileName key value : String) (missing : Bool) :
    (mkTask locale fileName key value missing).file_name = fileName := rfl

/-- The per-reference-file body of `LocaleAnalyzer.analyze_locale`:
given the English data of one file and the target file's contents when it
exists, emit the tasks for that file in reference-key order. -/
def analyze_file (locale fileName : String) (englishData : LocaleData)
    (localeFile : Option LocaleData) : List TranslationTask :=
  match localeFile with
  | none => englishData.map fun kv => mkTask locale fileName kv.1 kv.2 true
  | some localeData =>
    englishData.filterMap fun kv =>
      match assocFind kv.1 localeData with
      | none => some (mkTask locale fileName kv.1 kv.2 true)
      | some v => if v = "" then some (mkTask locale fileName kv.1 kv.2 false) else none

/-- Models `LocaleAnalyzer.analyze_locale`: returns the empty task list when the
locale directory is absent; otherwise appends, per reference file, the
tasks for the missing and empty keys. -/
def analyze_locale (fs : LocaleFS) (locale : String) : List TranslationTask :=
  if locale ∈ fs.dirs then
    fs.englishData.foldl
      (fun tasks p => tasks ++ analyze_file locale p.1 p.2 (assocFind (locale, p.1) fs.files))
      []
  else []

/-! ## TranslationEngine -/

/-- The in-memory translation cache keyed by (locale, key, english). -/
structure EngineState where
  cache : List ((String × String × String) × String)
  deriving Repr, DecidableEq

/-- Outcome of one `client.beta.chat.completions.parse` call, indexed by
attempt number: a parsed list of (key, translation) items, a response
without parsed content, or a raised exception. -/
inductive ProviderResult where
  | parsed (items : List (String × String))
  | notParsed
  | failure
  deriving Repr, DecidableEq

/-- Result of `translate_batch`: the returned list together with the cache
state and the number of provider calls issued, or a propagated exception
(also with state and call count). -/
inductive BatchOutcome where
  | ok (results : List (TranslationTask × String × ValidationResult)) (st : EngineState)
      (calls : Nat)
  | error (st : EngineState) (calls : Nat)
  deriving Repr, DecidableEq

def BatchOutcome.state : BatchOutcome → EngineState
  | .ok _ st _ => st
  | .error st _ => st

def BatchOutcome.calls : BatchOutcome → Nat
  | .ok _ _ c => c
  | .error _ c => c

/-- One iteration of the inner loop over `zip(uncached_tasks,
translations)`: validate the returned item; an invalid item with retries
remaining is skipped (`continue` in the source targets this inner loop),
otherwise the item is cached and appended to the results. -/
def processStep (attempt max_retries : Nat)
    (acc : EngineState × List (TranslationTask × String × ValidationResult))
    (p : TranslationTask × (String × String)) :
    EngineState × List (TranslationTask × String × ValidationResult) :=
  let translated := p.2.2
  let validation := validate_translation p.1 translated
  if validation.is_valid = false ∧ attempt < max_retries - 1 then acc
  else
    (⟨assocSet acc.1.cache (p.1.locale, p.1.key, p.1.english_value) fun _ => translated⟩,
      acc.2 ++ [(p.1, translated, validation)])

/-- The inner loop of `translate_batch` over a parsed response. -/
def processParsed (st : EngineState) (uncached : List TranslationTask)
    (items : List (String × String)) (attempt max_retries : Nat) :
    EngineState × List (TranslationTask × String × ValidationResult) :=
  (uncached.zip items).foldl (processStep attempt max_retries) (st, [])

/-- The `for attempt in range(max_retries)` loop of `translate_batch`.
`fuel` counts the remaining iterations (initially `max_retries`), `attempt`
the current index. A parsed response is processed and returned; a response
without parsed content falls through to the next attempt; an exception is
retried while attempts remain and re-raised on the last one. -/
def runAttempts (provider : Nat → ProviderResult) (uncached : List TranslationTask)
    (cachedResults : List (TranslationTask × String × ValidationResult))
    (max_retries : Nat) : Nat → Nat → EngineState → BatchOutcome
  | 0, attempt, st => .ok cachedResults st attempt
  | fuel + 1, attempt, st =>
    match provider attempt with
    | .parsed items =>
      let out := processParsed st uncached items attempt max_retries
      .ok (cachedResults ++ out.2) out.1 (attempt + 1)
    | .notParsed => runAttempts provider uncached cachedResults max_retries fuel (attempt + 1) st
    | .failure =>
      if attempt < max_retries - 1 then
        runAttempts provider uncached cachedResults max_retries fuel (attempt + 1) st
      else .error st (attempt + 1)

/-- Cache key (locale, key, english) of a task. -/
def cacheKey (t : TranslationTask) : String × String × String :=
  (t.locale, t.key, t.english_value)

/-- Models `TranslationEngine.translate_batch`. Tasks already in the cache are
resolved and re-validated without any provider call; the remaining tasks
are sent to the provider (modelled as an oracle indexed by attempt). -/
def translate_batch (st : EngineState) (provider : Nat → ProviderResult)
    (tasks : List TranslationTask) (max_retries : Nat := 3) : BatchOutcome :=
  if tasks.isEmpty then .ok [] st 0
  else
    let cachedResults := tasks.filterMap fun t =>
      (assocFind (cacheKey t) st.cache).map fun tr => (t, tr, validate_translation t tr)
    let uncached := tasks.filter fun t => (assocFind (cacheKey t) st.cache).isNone
    if uncached.isEmpty then .ok cachedResults st 0
    else runAttempts provider uncached cachedResults max_retries max_retries 0 st

/-! ## SafeFileUpdater -/

/-- Persisted state touched by `SafeFileUpdater.update_locale_file`:
the locale files, the set of locale directories whose creation was
ensured, and the backup copies made this run. -/
structure UpdaterFS where
  files : List ((String × String) × LocaleData)
  dirsCreated : List (String × String)
  backups : List ((String × String) × LocaleData)
  deriving Repr, DecidableEq

/-- One iteration of the merge loop of `update_locale_file`: write the
incoming pair only when its key is absent or its existing value is empty,
counting the write. -/
def mergeStep (acc : LocaleData × Nat) (kv : String × String) : LocaleData × Nat :=
  if assocFind kv.1 acc.1 = none ∨ assocFind kv.1 acc.1 = some "" then
    (assocSet acc.1 kv.1 fun _ => kv.2, acc.2 + 1)
  else acc

/-- The merge loop of `update_locale_file` over all incoming pairs. -/
def mergeTranslations (data : LocaleData) (translations : List (String × String)) :
    LocaleData × Nat :=
  translations.foldl mergeStep (data, 0)

/-- Models `SafeFileUpdater.update_locale_file`. Returns the new filesystem state,
the reported `updates_made` count, and the boolean result (always true).
The write-to-temporary-then-rename of the source is modelled as one atomic
replacement of the file's contents. -/
def update_locale_file (fs : UpdaterFS) (locale file_name : String)
    (translations : List (String × String)) (dry_run : Bool) : UpdaterFS × Nat × Bool :=
  let fkey := (locale, file_name)
  let loaded :=
    match assocFind fkey fs.files with
    | some data =>
      let fs₁ := if dry_run then fs else { fs with backups := fs.backups ++ [(fkey, data)] }
      (fs₁, data)
    | none =>
      let fs₁ := if dry_run then fs else { fs with dirsCreated := fs.dirsCreated ++ [fkey] }
      (fs₁, ([] : LocaleData))
  let merged := mergeTranslations loaded.2 translations
  let fs₂ :=
    if merged.2 > 0 ∧ dry_run = false then
      { loaded.1 with files := assocSet loaded.1.files fkey fun _ => merged.1 }
    else loaded.1
  (fs₂, merged.2, true)

/-! ## LocaleTranslator batching -/

/-- The `defaultdict(list)` grouping of `group_tasks_into_batches`:
groups keyed by (locale, file_name) in first-encounter order, each group
holding its tasks in encounter order. -/
def groupStep (acc : List ((String × String) × List TranslationTask)) (t : TranslationTask) :
    List ((String × String) × List TranslationTask) :=
  assocSet acc (t.locale, t.file_name) fun o => o.getD [] ++ [t]

def group_by_key (tasks : List TranslationTask) : List ((String × String) × List TranslationTask) :=
  tasks.foldl groupStep []

/-- Consecutive slices of size `n` (`file_tasks[i:i + batch_size]` for `i`
in `range(0, len, batch_size)`); `fuel = l.length` always suffices for a
positive `n`. -/
def chunkAux {α : Type} (n : Nat) : Nat → List α → List (List α)
  | _, [] => []
  | 0, _ :: _ => []
  | fuel + 1, l => l.take n :: chunkAux n fuel (l.drop n)

def chunkList {α : Type} (n : Nat) (l : List α) : List (List α) :=
  if n = 0 then [] else chunkAux n l.length l

/-- Models `LocaleTranslator.group_tasks_into_batches`: group by (locale, file)
and slice every group into chunks of at most `batch_size`. -/
def group_tasks_into_batches (tasks : List TranslationTask) (batch_size : Nat) :
    List (List TranslationTask) :=
  (group_by_key tasks).foldl (fun batches p => batches ++ chunkList batch_size p.2) []

/-! ## Lemmas about the validator -/

theorem ph_missing_fold (tp : List String) (l : List String) (r : ValidationResult) :
    l.foldl
      (fun r p =>
        if p ∈ tp then r
        else { r with is_valid := false, errors := r.errors ++ [missingPlaceholderMsg p] })
      r =
    ⟨r.is_valid && l.all (fun p => decide (p ∈ tp)),
      r.errors ++ (l.filter fun p => decide (p ∉ tp)).map missingPlaceholderMsg,
      r.warnings⟩ := by
  induction l generalizing r with
  | nil => simp
  | cons p l ih =>
    by_cases h : p ∈ tp
    · simp [h, ih]
    · simp [h, ih]

theorem ph_warning_fold (op : List String) (l : List String) (r : ValidationResult) :
    l.foldl
      (fun r p =>
        if p ∈ op then r
        else { r with warnings := r.warnings ++ [extraPlaceholderMsg p] })
      r =
    ⟨r.is_valid, r.errors,
      r.warnings ++ (l.filter fun p => decide (p ∉ op)).map extraPlaceholderMsg⟩ := by
  induction l generalizing r with
  | nil => simp
  | cons p l ih =>
    by_cases h : p ∈ op
    · simp [h, ih]
    · simp [h, ih]

/-- Closed form of `validate_placeholders`. -/
theorem validate_placeholders_eq (original translated : String) :
    validate_placeholders original translated =
      ⟨(findPlaceholders original).all (fun p => decide (p ∈ findPlaceholders translated)),
        ((findPlaceholders original).filter
          (fun p => decide (p ∉ findPlaceholders translated))).map missingPlaceholderMsg,
        ((findPlaceholders translated).filter
          (fun p => decide (p ∉ findPlaceholders original))).map extraPlaceholderMsg⟩ := by
  unfold validate_placeholders
  simp only []
  rw [ph_warning_fold, ph_missing_fold]
  simp

theorem validate_length_valid (original translated : String) (tolerance : ℚ) :
    (validate_length original translated tolerance).is_valid = true ∧
      (validate_length original translated tolerance).errors = [] := by
  unfold validate_length
  simp only []
  split
  · exact ⟨rfl, rfl⟩
  · split <;> split <;> exact ⟨rfl, rfl⟩

theorem validate_no_english_remnants_valid (original translated locale : String) :
    (validate_no_english_remnants original translated locale).is_valid = true ∧
      (validate_no_english_remnants original translated locale).errors = [] := by
  unfold validate_no_english_remnants
  simp only []
  split
  · split <;> exact ⟨rfl, rfl⟩
  · exact ⟨rfl, rfl⟩

/-- The source text in the placeholder round-trip example of the spec:
double-brace name and count placeholders. -/
def helloSource : String := "Hello \x7b\x7bname\x7d\x7d, you have \x7b\x7bcount\x7d\x7d items"

def namePH : String := "\x7b\x7bname\x7d\x7d"

def countPH : String := "\x7b\x7bcount\x7d\x7d"

def extraPH : String := "\x7b\x7bextra\x7d\x7d"

theorem findPlaceholders_helloSource : findPlaceholders helloSource = [namePH, countPH] := by
  decide

/-- C1: the placeholder check is invalid exactly when some double-brace
placeholder found in the source is not among the placeholders found in the
translation; each missing placeholder contributes an error (in source
order); placeholders only in the translation contribute exactly the
warnings and never affect validity. For the spec's example source, any
translation whose placeholders omit the count placeholder is invalid, and
any translation containing both source placeholders plus an extra one is
valid with a warning. -/
theorem placeholder_check_spec :
    (∀ original translated : String,
      ((validate_placeholders original translated).is_valid = false ↔
        ∃ p ∈ findPlaceholders original, p ∉ findPlaceholders translated) ∧
      ((validate_placeholders original translated).is_valid = true ↔
        ∀ p ∈ findPlaceholders original, p ∈ findPlaceholders translated) ∧
      (validate_placeholders original translated).errors =
        ((findPlaceholders original).filter
          (fun p => decide (p ∉ findPlaceholders translated))).map missingPlaceholderMsg ∧
      (validate_placeholders original translated).warnings =
        ((findPlaceholders translated).filter
          (fun p => decide (p ∉ findPlaceholders original))).map extraPlaceholderMsg) ∧
    (∀ translated : String, countPH ∉ findPlaceholders translated →
      (validate_placeholders helloSource translated).is_valid = false) ∧
    (∀ translated : String,
      namePH ∈ findPlaceholders translated → countPH ∈ findPlaceholders translated →
      extraPH ∈ findPlaceholders translated →
      (validate_placeholders helloSource translated).is_valid = true ∧
        (validate_placeholders helloSource translated).warnings ≠ []) := by
  have main : ∀ original translated : String,
      ((validate_placeholders original translated).is_valid = false ↔
        ∃ p ∈ findPlaceholders original, p ∉ findPlaceholders translated) ∧
      ((validate_placeholders original translated).is_valid = true ↔
        ∀ p ∈ findPlaceholders original, p ∈ findPlaceholders translated) ∧
      (validate_placeholders original translated).errors =
        ((findPlaceholders original).filter
          (fun p => decide (p ∉ findPlaceholders translated))).map missingPlaceholderMsg ∧
      (validate_placeholders original translated).warnings =
        ((findPlaceholders translated).filter
          (fun p => decide (p ∉ findPlaceholders original))).map extraPlaceholderMsg := by
    intro original translated
    rw [validate_placeholders_eq]
    refine ⟨?_, ?_, rfl, rfl⟩
    · simp [List.all_eq_true]
    · simp [List.all_eq_true]
  refine ⟨main, ?_, ?_⟩
  · intro translated hcount
    rw [(main helloSource translated).1.2]
    exact ⟨countPH, by rw [findPlaceholders_helloSource]; simp, hcount⟩
  · intro translated hname hcount hextra
    constructor
    · rw [(main helloSource translated).2.1.2]
      intro p hp
      rw [findPlaceholders_helloSource] at hp
      simp only [List.mem_cons, List.not_mem_nil, or_false] at hp
      rcases hp with h | h
      · exact h ▸ hname
      · exact h ▸ hcount
    · rw [(main helloSource translated).2.2.2]
      have hmem : extraPH ∈ (findPlaceholders translated).filter
          (fun p => decide (p ∉ findPlaceholders helloSource)) := by
        rw [List.mem_filter]
        refine ⟨hextra, ?_⟩
        rw [findPlaceholders_helloSource]
        decide
      intro hnil
      have := List.mem_map_of_mem extraPlaceholderMsg hmem
      rw [hnil] at this
      cases this

/-- C1 witness: a concrete translation missing the count placeholder is
invalid, and a concrete translation with both placeholders plus an extra
one is valid with a warning. -/
theorem placeholder_check_spec_witness :
    (validate_placeholders helloSource "Bonjour \x7b\x7bname\x7d\x7d").is_valid = false ∧
      (validate_placeholders helloSource
        "Bonjour \x7b\x7bname\x7d\x7d, \x7b\x7bcount\x7d\x7d objets \x7b\x7bextra\x7d\x7d").is_valid =
          true := by
  constructor
  · exact placeholder_check_spec.2.1 "Bonjour \x7b\x7bname\x7d\x7d" (by decide)
  · exact (placeholder_check_spec.2.2
      "Bonjour \x7b\x7bname\x7d\x7d, \x7b\x7bcount\x7d\x7d objets \x7b\x7bextra\x7d\x7d"
      (by decide) (by decide) (by decide)).1

/-- C6: the combined result of the three checks is valid iff every
individual check is valid; its errors and warnings are the concatenations
of the checks' errors and warnings in check order; the length and script
checks always return valid results, so only the placeholder check can make
the combined result invalid. -/
theorem combined_validation_spec :
    ∀ (task : TranslationTask) (translated : String),
      (validate_translation task translated).is_valid =
          ((validate_placeholders task.english_value translated).is_valid &&
            ((validate_length task.english_value translated).is_valid &&
              (validate_no_english_remnants task.english_value translated task.locale).is_valid)) ∧
      ((validate_translation task translated).is_valid = true ↔
        ((validate_placeholders task.english_value translated).is_valid = true ∧
          (validate_length task.english_value translated).is_valid = true ∧
          (validate_no_english_remnants task.english_value translated task.locale).is_valid =
            true)) ∧
      (validate_translation task translated).errors =
        (validate_placeholders task.english_value translated).errors ++
          (validate_length task.english_value translated).errors ++
          (validate_no_english_remnants task.english_value translated task.locale).errors ∧
      (validate_translation task translated).warnings =
        (validate_placeholders task.english_value translated).warnings ++
          (validate_length task.english_value translated).warnings ++
          (validate_no_english_remnants task.english_value translated task.locale).warnings ∧
      (validate_length task.english_value translated).is_valid = true ∧
      (validate_no_english_remnants task.english_value translated task.locale).is_valid = true ∧
      (validate_translation task translated).is_valid =
        (validate_placeholders task.english_value translated).is_valid := by
  intro task translated
  obtain ⟨hl, hle⟩ := validate_length_valid task.english_value translated 3
  obtain ⟨hr, hre⟩ := validate_no_english_remnants_valid task.english_value translated task.locale
  unfold validate_translation
  simp only []
  simp only [List.foldl_cons, List.foldl_nil]
  refine ⟨?_, ?_, ?_, ?_, hl, hr, ?_⟩ <;> simp [hl, hr, List.append_assoc]

/-- C7: for a non-empty source the length check emits a warning (and never
an error) exactly when the length ratio falls outside the tolerance
interval, with tolerance 5 for sources of at most 5 characters and 3
otherwise; for an empty source it emits nothing and is valid. -/
theorem length_check_spec :
    ∀ original translated : String,
      (original.length = 0 → validate_length original translated = ⟨true, [], []⟩) ∧
      (original.length ≠ 0 →
        ((validate_length original translated).warnings ≠ [] ↔
          ((translated.length : ℚ) / (original.length : ℚ) <
              1 / (if original.length ≤ 5 then (5 : ℚ) else 3) ∨
            (translated.length : ℚ) / (original.length : ℚ) >
              (if original.length ≤ 5 then (5 : ℚ) else 3)))) ∧
      (validate_length original translated).errors = [] ∧
      (validate_length original translated).is_valid = true := by
  intro original translated
  obtain ⟨hv, he⟩ := validate_length_valid original translated 3
  refine ⟨?_, ?_, he, hv⟩
  · intro h0
    unfold validate_length
    simp [h0]
  · intro h0
    unfold validate_length
    simp only []
    rw [if_neg h0]
    split <;> split <;> next hc2 =>
      first
      | exact iff_of_true (by simp) (by simpa [one_div, gt_iff_lt] using hc2)
      | exact iff_of_false (by simp) fun hcon => hc2 (by simpa [one_div, gt_iff_lt] using hcon)

/-- C7 witness: a concrete non-empty source whose translation is far too
short triggers the warning. -/
theorem length_check_spec_witness :
    "Hello!".length ≠ 0 ∧ (validate_length "Hello!" "").warnings ≠ [] := by
  refine ⟨by decide, ((length_check_spec "Hello!" "").2.1 (by decide)).mpr ?_⟩
  have h1 : "".length = 0 := rfl
  have h2 : "Hello!".length = 6 := rfl
  rw [h1, h2, if_neg (by norm_num : ¬(6 ≤ 5))]
  left
  norm_num

/-! ## Lemmas about the file updater -/

theorem mergeFold_find_ne (tr : List (String × String)) (k : String)
    (hk : ∀ p ∈ tr, p.1 ≠ k) :
    ∀ acc : LocaleData × Nat, assocFind k (tr.foldl mergeStep acc).1 = assocFind k acc.1 := by
  induction tr with
  | nil => intro acc; rfl
  | cons kv tr ih =>
    intro acc
    rw [List.foldl_cons, ih fun p hp => hk p (List.mem_cons_of_mem kv hp)]
    have hne : k ≠ kv.1 := Ne.symm (hk kv (List.mem_cons_self kv tr))
    unfold mergeStep
    split
    · show assocFind k (assocSet acc.1 kv.1 fun _ => kv.2) = assocFind k acc.1
      exact assocFind_assocSet_ne acc.1 kv.1 k _ hne
    · rfl

theorem mergeFold_preserves (tr : List (String × String)) (k v : String) (hv : v ≠ "") :
    ∀ acc : LocaleData × Nat, assocFind k acc.1 = some v →
      assocFind k (tr.foldl mergeStep acc).1 = some v := by
  induction tr with
  | nil => intro acc h; exact h
  | cons kv tr ih =>
    intro acc hacc
    rw [List.foldl_cons]
    apply ih
    by_cases hcond : assocFind kv.1 acc.1 = none ∨ assocFind kv.1 acc.1 = some ""
    · have hne : k ≠ kv.1 := by
        intro he
        rw [← he, hacc] at hcond
        rcases hcond with h | h
        · cases h
        · exact hv (Option.some.inj h)
      have hstep : (mergeStep acc kv).1 = assocSet acc.1 kv.1 fun _ => kv.2 := by
        unfold mergeStep
        rw [if_pos hcond]
      rw [hstep, assocFind_assocSet_ne acc.1 kv.1 k _ hne]
      exact hacc
    · have hstep : (mergeStep acc kv).1 = acc.1 := by
        unfold mergeStep
        rw [if_neg hcond]
      rw [hstep]
      exact hacc

theorem mergeFold_writes (tr : List (String × String)) (k text : String)
    (hnodup : (tr.map Prod.fst).Nodup) :
    ∀ acc : LocaleData × Nat, (k, text) ∈ tr →
      (assocFind k acc.1 = none ∨ assocFind k acc.1 = some "") →
      assocFind k (tr.foldl mergeStep acc).1 = some text := by
  induction tr with
  | nil => intro acc h; cases h
  | cons kv tr ih =>
    intro acc hmem hfind
    simp only [List.map_cons, List.nodup_cons] at hnodup
    obtain ⟨hhead, htailnodup⟩ := hnodup
    rw [List.foldl_cons]
    rcases List.mem_cons.mp hmem with heq | htail
    · subst heq
      have hstep : mergeStep acc (k, text) = (assocSet acc.1 k fun _ => text, acc.2 + 1) := by
        unfold mergeStep
        simp only []
        rw [if_pos hfind]
      rw [hstep]
      have hk : ∀ p ∈ tr, p.1 ≠ k := by
        intro p hp hpk
        exact hhead (List.mem_map.mpr ⟨p, hp, hpk⟩)
      rw [mergeFold_find_ne tr k hk]
      show assocFind k (assocSet acc.1 k fun _ => text) = some text
      rw [assocFind_assocSet_self]
    · have hkvne : kv.1 ≠ k := by
        intro he
        exact hhead (he ▸ List.mem_map.mpr ⟨(k, text), htail, rfl⟩)
      apply ih htailnodup _ htail
      have hstep : (mergeStep acc kv).1 = acc.1 ∨
          (mergeStep acc kv).1 = assocSet acc.1 kv.1 fun _ => kv.2 := by
        unfold mergeStep
        split
        · exact Or.inr rfl
        · exact Or.inl rfl
      rcases hstep with h | h
      · rw [h]; exact hfind
      · rw [h, assocFind_assocSet_ne acc.1 kv.1 k _ (Ne.symm hkvne)]
        exact hfind

theorem mergeFold_count (tr : List (String × String)) :
    ∀ acc : LocaleData × Nat, acc.2 ≤ (tr.foldl mergeStep acc).2 ∧
      ((tr.foldl mergeStep acc).2 = acc.2 → (tr.foldl mergeStep acc).1 = acc.1) := by
  induction tr with
  | nil => intro acc; exact ⟨le_rfl, fun _ => rfl⟩
  | cons kv tr ih =>
    intro acc
    rw [List.foldl_cons]
    by_cases hcond : assocFind kv.1 acc.1 = none ∨ assocFind kv.1 acc.1 = some ""
    · have hstep : mergeStep acc kv = (assocSet acc.1 kv.1 fun _ => kv.2, acc.2 + 1) := by
        unfold mergeStep
        rw [if_pos hcond]
      rw [hstep]
      obtain ⟨h1, h2⟩ := ih (assocSet acc.1 kv.1 fun _ => kv.2, acc.2 + 1)
      have h1' : acc.2 + 1 ≤ (List.foldl mergeStep
          (assocSet acc.1 kv.1 fun _ => kv.2, acc.2 + 1) tr).2 := h1
      exact ⟨by omega, fun he => absurd he (by omega)⟩
    · have hstep : mergeStep acc kv = acc := by
        unfold mergeStep
        rw [if_neg hcond]
      rw [hstep]
      exact ih acc

/-- C2: merging translations into an existing mapping writes an incoming
pair only when its key is absent or bound to the empty string; every key
with a non-empty existing value keeps that value; `update_locale_file`
persists exactly this merged mapping; and the spec's concrete example
merges as stated. -/
theorem merge_non_overwrite_spec :
    ∀ (data : LocaleData) (tr : List (String × String)) (k : String),
      (∀ v, assocFind k data = some v → v ≠ "" →
        assocFind k (mergeTranslations data tr).1 = some v) ∧
      ((tr.map Prod.fst).Nodup →
        ∀ text, (k, text) ∈ tr →
          (assocFind k data = none ∨ assocFind k data = some "") →
          assocFind k (mergeTranslations data tr).1 = some text) ∧
      (∀ (fs : UpdaterFS) (locale fn : String),
        assocFind (locale, fn) fs.files = some data →
        assocFind (locale, fn) ((update_locale_file fs locale fn tr false).1).files =
          some (mergeTranslations data tr).1) ∧
      mergeTranslations [("greeting", "Bonjour")]
          [("greeting", "Salut"), ("farewell", "Au revoir")] =
        ([("greeting", "Bonjour"), ("farewell", "Au revoir")], 1) := by
  intro data tr k
  refine ⟨?_, ?_, ?_, by decide⟩
  · intro v hv hvne
    exact mergeFold_preserves tr k v hvne (data, 0) hv
  · intro hnodup text hmem hfind
    exact mergeFold_writes tr k text hnodup (data, 0) hmem hfind
  · intro fs locale fn hfind
    unfold update_locale_file
    simp only [hfind, Bool.false_eq_true, if_false, eq_self_iff_true, and_true, gt_iff_lt]
    split
    · next hcond =>
      show assocFind (locale, fn)
          (assocSet fs.files (locale, fn) fun _ => (mergeTranslations data tr).1) =
        some (mergeTranslations data tr).1
      rw [assocFind_assocSet_self]
    · next hcond =>
      have hz : (mergeTranslations data tr).2 = 0 := by omega
      have heq : (mergeTranslations data tr).1 = data :=
        (mergeFold_count tr (data, 0)).2 hz
      show assocFind (locale, fn) fs.files = some (mergeTranslations data tr).1
      rw [heq]
      exact hfind

/-- C2 witness: applying the merge theorem to the spec's concrete example
shows the non-empty greeting is preserved and the absent farewell is
written. -/
theorem merge_non_overwrite_spec_witness :
    assocFind "greeting"
        (mergeTranslations [("greeting", "Bonjour")]
          [("greeting", "Salut"), ("farewell", "Au revoir")]).1 = some "Bonjour" ∧
      assocFind "farewell"
        (mergeTranslations [("greeting", "Bonjour")]
          [("greeting", "Salut"), ("farewell", "Au revoir")]).1 = some "Au revoir" := by
  constructor
  · exact (merge_non_overwrite_spec [("greeting", "Bonjour")]
      [("greeting", "Salut"), ("farewell", "Au revoir")] "greeting").1 "Bonjour" (by decide)
      (by decide)
  · exact (merge_non_overwrite_spec [("greeting", "Bonjour")]
      [("greeting", "Salut"), ("farewell", "Au revoir")] "farewell").2.1 (by decide) "Au revoir"
      (by decide) (by decide)

/-- C9: with dry-run enabled, `update_locale_file` leaves the persisted
state completely unchanged — no file written, no directory created, no
backup made — while still computing the merge and reporting its count. -/
theorem dry_run_spec :
    ∀ (fs : UpdaterFS) (locale fn : String) (tr : List (String × String)),
      (update_locale_file fs locale fn tr true).1 = fs ∧
      (update_locale_file fs locale fn tr true).2.1 =
        (mergeTranslations ((assocFind (locale, fn) fs.files).getD []) tr).2 ∧
      (update_locale_file fs locale fn tr true).2.2 = true := by
  intro fs locale fn tr
  unfold update_locale_file
  cases h : assocFind (locale, fn) fs.files <;> simp [h]

/-! ## Lemmas about the analyzer -/

theorem foldl_append_eq {α β : Type} (l : List α) (g : α → List β) :
    ∀ init : List β, l.foldl (fun acc p => acc ++ g p) init = init ++ (l.map g).flatten := by
  induction l with
  | nil => intro init; simp
  | cons a l ih => intro init; simp [ih, List.append_assoc]

theorem analyze_file_file_name {locale fn : String} {ed : LocaleData} {lf : Option LocaleData}
    {t : TranslationTask} (ht : t ∈ analyze_file locale fn ed lf) : t.file_name = fn := by
  cases lf with
  | none =>
    simp only [analyze_file, List.mem_map] at ht
    obtain ⟨kv, _, rfl⟩ := ht
    rfl
  | some ld =>
    simp only [analyze_file, List.mem_filterMap] at ht
    obtain ⟨kv, _, hkv⟩ := ht
    cases hl : assocFind kv.1 ld with
    | none =>
      simp only [hl] at hkv
      cases hkv
      rfl
    | some v =>
      simp only [hl] at hkv
      by_cases hv : v = ""
      · rw [if_pos hv] at hkv
        cases hkv
        rfl
      · rw [if_neg hv] at hkv
        cases hkv

theorem analyze_file_key_mem {locale fn : String} {ed ld : LocaleData} {t : TranslationTask}
    (ht : t ∈ analyze_file locale fn ed (some ld)) : ∃ v, (t.key, v) ∈ ed := by
  simp only [analyze_file, List.mem_filterMap] at ht
  obtain ⟨kv, hkv, hf⟩ := ht
  refine ⟨kv.2, ?_⟩
  cases hl : assocFind kv.1 ld with
  | none =>
    simp only [hl] at hf
    cases hf
    exact hkv
  | some v =>
    simp only [hl] at hf
    by_cases hv : v = ""
    · rw [if_pos hv] at hf
      cases hf
      exact hkv
    · rw [if_neg hv] at hf
      cases hf

theorem nodup_keys_value_eq {α β : Type} {l : List (α × β)} (h : (l.map Prod.fst).Nodup)
    {a : α} {b b' : β} (h1 : (a, b) ∈ l) (h2 : (a, b') ∈ l) : b = b' := by
  induction l with
  | nil => cases h1
  | cons p l ih =>
    simp only [List.map_cons, List.nodup_cons] at h
    rcases List.mem_cons.mp h1 with e1 | m1 <;> rcases List.mem_cons.mp h2 with e2 | m2
    · exact congrArg Prod.snd (e1.trans e2.symm)
    · exfalso
      exact h.1 (e1 ▸ List.mem_map.mpr ⟨(a, b'), m2, rfl⟩)
    · exfalso
      exact h.1 (e2 ▸ List.mem_map.mpr ⟨(a, b), m1, rfl⟩)
    · exact ih h.2 m1 m2

theorem mem_analyze_file_some {locale fn : String} {ed ld : LocaleData} {k v : String} {b : Bool}
    (hkv : (k, v) ∈ ed) :
    (mkTask locale fn k v b ∈ analyze_file locale fn ed (some ld)) ↔
      ((b = true ∧ assocFind k ld = none) ∨ (b = false ∧ assocFind k ld = some "")) := by
  constructor
  · intro hmem
    simp only [analyze_file, List.mem_filterMap] at hmem
    obtain ⟨kv, hkvmem, hf⟩ := hmem
    cases hl : assocFind kv.1 ld with
    | none =>
      simp only [hl] at hf
      injection hf with hf
      have hk : kv.1 = k := congrArg TranslationTask.key hf
      have hb : b = true := (congrArg TranslationTask.is_missing hf).symm
      rw [hk] at hl
      exact Or.inl ⟨hb, hl⟩
    | some w =>
      simp only [hl] at hf
      by_cases hw : w = ""
      · rw [if_pos hw] at hf
        injection hf with hf
        have hk : kv.1 = k := congrArg TranslationTask.key hf
        have hb : b = false := (congrArg TranslationTask.is_missing hf).symm
        rw [hk] at hl
        exact Or.inr ⟨hb, hw ▸ hl⟩
      · rw [if_neg hw] at hf
        cases hf
  · intro hcase
    simp only [analyze_file, List.mem_filterMap]
    refine ⟨(k, v), hkv, ?_⟩
    rcases hcase with ⟨hb, hl⟩ | ⟨hb, hl⟩
    · show (match assocFind k ld with
        | none => some (mkTask locale fn k v true)
        | some w => if w = "" then some (mkTask locale fn k v false) else none) =
          some (mkTask locale fn k v b)
      rw [hl, hb]
    · show (match assocFind k ld with
        | none => some (mkTask locale fn k v true)
        | some w => if w = "" then some (mkTask locale fn k v false) else none) =
          some (mkTask locale fn k v b)
      rw [hl, hb]
      simp

/-- C10: when the target locale's directory does not exist at all,
analyze returns the empty task list — no tasks for any reference file. -/
theorem missing_dir_spec :
    ∀ (fs : LocaleFS) (locale : String), locale ∉ fs.dirs → analyze_locale fs locale = [] := by
  intro fs locale h
  unfold analyze_locale
  rw [if_neg h]

/-- C10 witness: a locale absent from the directory list yields no tasks
although the reference data is non-empty. -/
theorem missing_dir_spec_witness :
    analyze_locale ⟨["es"], [], [("common.json", [("a", "A")])]⟩ "fr" = [] :=
  missing_dir_spec ⟨["es"], [], [("common.json", [("a", "A")])]⟩ "fr" (by decide)

/-- C4: when the target locale file exists, analyze produces for each
reference key a missing-true task exactly when the key is absent, a
missing-false task exactly when it is bound to the empty string, and no
task when it has a non-empty value; every produced task's key is a
reference key (target-only keys are never tasked). -/
theorem analyze_existing_file_spec :
    ∀ (fs : LocaleFS) (locale fn : String) (ed ld : LocaleData),
      locale ∈ fs.dirs →
      (fs.englishData.map Prod.fst).Nodup →
      (fn, ed) ∈ fs.englishData →
      assocFind (locale, fn) fs.files = some ld →
      (∀ k v, (k, v) ∈ ed →
        ((mkTask locale fn k v true ∈ analyze_locale fs locale ↔ assocFind k ld = none) ∧
          (mkTask locale fn k v false ∈ analyze_locale fs locale ↔
            assocFind k ld = some "") ∧
          (∀ w, assocFind k ld = some w → w ≠ "" →
            ∀ b, mkTask locale fn k v b ∉ analyze_locale fs locale))) ∧
      (∀ t ∈ analyze_locale fs locale, t.file_name = fn → ∃ v, (t.key, v) ∈ ed) := by
  intro fs locale fn ed ld hdir hfilesnodup hfn hld
  have hlist : analyze_locale fs locale =
      (fs.englishData.map fun p =>
        analyze_file locale p.1 p.2 (assocFind (locale, p.1) fs.files)).flatten := by
    unfold analyze_locale
    rw [if_pos hdir, foldl_append_eq]
    simp
  have hmem : ∀ t : TranslationTask, t ∈ analyze_locale fs locale ↔
      ∃ p ∈ fs.englishData,
        t ∈ analyze_file locale p.1 p.2 (assocFind (locale, p.1) fs.files) := by
    intro t
    rw [hlist]
    constructor
    · intro ht
      obtain ⟨s, hs, hts⟩ := List.mem_flatten.mp ht
      obtain ⟨p, hp, rfl⟩ := List.mem_map.mp hs
      exact ⟨p, hp, hts⟩
    · rintro ⟨p, hp, htp⟩
      exact List.mem_flatten.mpr ⟨_, List.mem_map.mpr ⟨p, hp, rfl⟩, htp⟩
  constructor
  · intro k v hkv
    have hred : ∀ b : Bool,
        mkTask locale fn k v b ∈ analyze_locale fs locale ↔
          mkTask locale fn k v b ∈ analyze_file locale fn ed (some ld) := by
      intro b
      rw [hmem]
      constructor
      · rintro ⟨p, hp, hin⟩
        have hfnp : fn = p.1 := by
          have hh := analyze_file_file_name hin
          rw [mkTask_file_name] at hh
          exact hh
        have hp' : (fn, p.2) ∈ fs.englishData := by
          rw [hfnp]
          exact hp
        have hpe : p.2 = ed := nodup_keys_value_eq hfilesnodup hp' hfn
        rw [← hfnp, hpe, hld] at hin
        exact hin
      · intro hin
        refine ⟨(fn, ed), hfn, ?_⟩
        show mkTask locale fn k v b ∈
          analyze_file locale fn ed (assocFind (locale, fn) fs.files)
        rw [hld]
        exact hin
    refine ⟨?_, ?_, ?_⟩
    · rw [hred true, mem_analyze_file_some hkv]
      simp
    · rw [hred false, mem_analyze_file_some hkv]
      simp
    · intro w hw hwne b
      rw [hred b, mem_analyze_file_some hkv]
      rintro (⟨hb, hnone⟩ | ⟨hb, hempty⟩)
      · rw [hw] at hnone
        cases hnone
      · rw [hw] at hempty
        exact hwne (Option.some.inj hempty)
  · intro t ht htfn
    rw [hmem] at ht
    obtain ⟨p, hp, hin⟩ := ht
    have hfnp : fn = p.1 := by
      rw [← htfn]
      exact analyze_file_file_name hin
    have hp' : (fn, p.2) ∈ fs.englishData := by
      rw [hfnp]
      exact hp
    have hpe : p.2 = ed := nodup_keys_value_eq hfilesnodup hp' hfn
    rw [← hfnp, hpe, hld] at hin
    exact analyze_file_key_mem hin

/-- C4 witness: on a concrete reference file and target file, the absent
key is tasked missing, the empty key is tasked non-missing, and the
non-empty key is not tasked. -/
theorem analyze_existing_file_spec_witness :
    mkTask "fr" "common.json" "a" "A" true ∈
        analyze_locale
          ⟨["fr"], [(("fr", "common.json"), [("b", ""), ("c", "See"), ("x", "X")])],
            [("common.json", [("a", "A"), ("b", "B"), ("c", "C")])]⟩ "fr" ∧
      mkTask "fr" "common.json" "b" "B" false ∈
        analyze_locale
          ⟨["fr"], [(("fr", "common.json"), [("b", ""), ("c", "See"), ("x", "X")])],
            [("common.json", [("a", "A"), ("b", "B"), ("c", "C")])]⟩ "fr" ∧
      mkTask "fr" "common.json" "c" "C" true ∉
        analyze_locale
          ⟨["fr"], [(("fr", "common.json"), [("b", ""), ("c", "See"), ("x", "X")])],
            [("common.json", [("a", "A"), ("b", "B"), ("c", "C")])]⟩ "fr" := by
  have h := analyze_existing_file_spec
    ⟨["fr"], [(("fr", "common.json"), [("b", ""), ("c", "See"), ("x", "X")])],
      [("common.json", [("a", "A"), ("b", "B"), ("c", "C")])]⟩
    "fr" "common.json" [("a", "A"), ("b", "B"), ("c", "C")] [("b", ""), ("c", "See"), ("x", "X")]
    (by decide) (by decide) (by decide) (by decide)
  exact ⟨(h.1 "a" "A" (by decide)).1.mpr (by decide),
    (h.1 "b" "B" (by decide)).2.1.mpr (by decide),
    (h.1 "c" "C" (by decide)).2.2 "See" (by decide) (by decide) true⟩

/-! ## Lemmas about the batcher -/

theorem chunkAux_nil {α : Type} (n fuel : Nat) : chunkAux (α := α) n fuel [] = [] := by
  cases fuel <;> rfl

theorem chunkAux_flatten {α : Type} (n : Nat) (hn : 0 < n) :
    ∀ (fuel : Nat) (l : List α), l.length ≤ fuel → (chunkAux n fuel l).flatten = l := by
  intro fuel
  induction fuel with
  | zero =>
    intro l hl
    cases l with
    | nil => rfl
    | cons a l => simp at hl
  | succ fuel ih =>
    intro l hl
    cases l with
    | nil => rfl
    | cons a l =>
      have hlen : ((a :: l).drop n).length ≤ fuel := by
        rw [List.length_drop]
        simp only [List.length_cons] at hl ⊢
        omega
      show ((a :: l).take n :: chunkAux n fuel ((a :: l).drop n)).flatten = a :: l
      rw [List.flatten_cons, ih _ hlen, List.take_append_drop]

theorem chunkAux_mem {α : Type} (n : Nat) (hn : 0 < n) :
    ∀ (fuel : Nat) (l : List α), l.length ≤ fuel →
      ∀ b ∈ chunkAux n fuel l, b ≠ [] ∧ b.length ≤ n := by
  intro fuel
  induction fuel with
  | zero =>
    intro l hl b hb
    cases l with
    | nil => cases hb
    | cons a l => simp at hl
  | succ fuel ih =>
    intro l hl b hb
    cases l with
    | nil => cases hb
    | cons a l =>
      have hlen : ((a :: l).drop n).length ≤ fuel := by
        rw [List.length_drop]
        simp only [List.length_cons] at hl ⊢
        omega
      rcases List.mem_cons.mp hb with heq | hmem
      · subst heq
        constructor
        · cases n with
          | zero => cases hn
          | succ m => simp [List.take_cons]
        · rw [List.length_take]
          exact min_le_left _ _
      · exact ih _ hlen b hmem

theorem chunkAux_dropLast {α : Type} (n : Nat) (hn : 0 < n) :
    ∀ (fuel : Nat) (l : List α), l.length ≤ fuel →
      ∀ b ∈ (chunkAux n fuel l).dropLast, b.length = n := by
  intro fuel
  induction fuel with
  | zero =>
    intro l hl b hb
    cases l with
    | nil => cases hb
    | cons a l => simp at hl
  | succ fuel ih =>
    intro l hl b hb
    cases l with
    | nil => cases hb
    | cons a l =>
      have hlen : ((a :: l).drop n).length ≤ fuel := by
        rw [List.length_drop]
        simp only [List.length_cons] at hl ⊢
        omega
      have hb' : b ∈ ((a :: l).take n :: chunkAux n fuel ((a :: l).drop n)).dropLast := hb
      cases hrest : chunkAux n fuel ((a :: l).drop n) with
      | nil =>
        rw [hrest] at hb'
        cases hb'
      | cons r rs =>
        rw [hrest, List.dropLast_cons₂] at hb'
        rcases List.mem_cons.mp hb' with heq | hmem
        · subst heq
          have hdrop : (a :: l).drop n ≠ [] := by
            intro hnil
            rw [hnil, chunkAux_nil] at hrest
            cases hrest
          have hlong : n < (a :: l).length := by
            by_contra hle
            push_neg at hle
            exact hdrop (List.drop_eq_nil_of_le hle)
          rw [List.length_take]
          omega
        · rw [← hrest] at hmem
          exact ih _ hlen b hmem

theorem chunkList_flatten {α : Type} (n : Nat) (hn : 0 < n) (l : List α) :
    (chunkList n l).flatten = l := by
  unfold chunkList
  rw [if_neg (Nat.pos_iff_ne_zero.mp hn)]
  exact chunkAux_flatten n hn l.length l le_rfl

theorem chunkList_mem {α : Type} (n : Nat) (hn : 0 < n) (l : List α) :
    ∀ b ∈ chunkList n l, b ≠ [] ∧ b.length ≤ n := by
  unfold chunkList
  rw [if_neg (Nat.pos_iff_ne_zero.mp hn)]
  exact chunkAux_mem n hn l.length l le_rfl

theorem chunkList_dropLast {α : Type} (n : Nat) (hn : 0 < n) (l : List α) :
    ∀ b ∈ (chunkList n l).dropLast, b.length = n := by
  unfold chunkList
  rw [if_neg (Nat.pos_iff_ne_zero.mp hn)]
  exact chunkAux_dropLast n hn l.length l le_rfl

theorem groupFold_find (tasks : List TranslationTask) (key : String × String) :
    ∀ acc, (assocFind key (tasks.foldl groupStep acc)).getD [] =
      (assocFind key acc).getD [] ++
        tasks.filter fun t => decide ((t.locale, t.file_name) = key) := by
  induction tasks with
  | nil => intro acc; simp
  | cons t tasks ih =>
    intro acc
    rw [List.foldl_cons, ih]
    by_cases hk : (t.locale, t.file_name) = key
    · have h1 : assocFind key (groupStep acc t) =
          some ((assocFind key acc).getD [] ++ [t]) := by
        unfold groupStep
        rw [hk, assocFind_assocSet_self]
      rw [h1, List.filter_cons, if_pos (by simpa using hk)]
      simp [List.append_assoc]
    · have h1 : assocFind key (groupStep acc t) = assocFind key acc := by
        unfold groupStep
        exact assocFind_assocSet_ne acc (t.locale, t.file_name) key _ fun h => hk h.symm
      rw [h1, List.filter_cons, if_neg (by simpa using hk)]

theorem groupFold_homog (tasks : List TranslationTask) :
    ∀ acc, (∀ p ∈ acc, ∀ t ∈ p.2, (t.locale, t.file_name) = p.1) →
      ∀ p ∈ tasks.foldl groupStep acc, ∀ t ∈ p.2, (t.locale, t.file_name) = p.1 := by
  induction tasks with
  | nil => intro acc h; exact h
  | cons t tasks ih =>
    intro acc hacc
    rw [List.foldl_cons]
    apply ih
    intro p hp t' ht'
    unfold groupStep assocSet at hp
    cases hf : assocFind (t.locale, t.file_name) acc with
    | some old =>
      rw [hf] at hp
      obtain ⟨q, hq, hpq⟩ := List.mem_map.mp hp
      by_cases hqk : q.1 = (t.locale, t.file_name)
      · rw [if_pos hqk] at hpq
        subst hpq
        rcases List.mem_append.mp ht' with hin | hin
        · exact hacc q hq t' hin
        · rw [List.mem_singleton.mp hin, hqk]
      · rw [if_neg hqk] at hpq
        subst hpq
        exact hacc q hq t' ht'
    | none =>
      rw [hf] at hp
      rcases List.mem_append.mp hp with hin | hin
      · exact hacc p hin t' ht'
      · rw [List.mem_singleton.mp hin] at ht' ⊢
        rw [List.mem_singleton.mp ht']

theorem group_by_key_homog (tasks : List TranslationTask) :
    ∀ p ∈ group_by_key tasks, ∀ t ∈ p.2, (t.locale, t.file_name) = p.1 :=
  groupFold_homog tasks [] (by intro p hp; cases hp)

theorem batches_eq_flatten (tasks : List TranslationTask) (n : Nat) :
    group_tasks_into_batches tasks n =
      ((group_by_key tasks).map fun p => chunkList n p.2).flatten := by
  unfold group_tasks_into_batches
  rw [foldl_append_eq]
  simp

/-- The spec's 45-task batch-sizing example: one (locale, file) group. -/
def demoTask (i : Nat) : TranslationTask :=
  mkTask "fr" "common.json" ("key" ++ toString i) ("value" ++ toString i) true

def demoTasks : List TranslationTask := (List.range 45).map demoTask

/-- C5: grouping into batches partitions the tasks by (locale, file name)
preserving encounter order within each group; the batch sequence is the
per-group chunk sequence, where each group's chunks concatenate back to
the group in order, every batch is non-empty with at most the maximum
size, only a group's last chunk may be smaller, and every batch lies in a
single group; 45 tasks for one (language, file) with maximum 20 give
sizes [20, 20, 5] in original order. -/
theorem batching_spec :
    ∀ (tasks : List TranslationTask) (n : Nat), 0 < n →
      (∀ key : String × String,
        (assocFind key (group_by_key tasks)).getD [] =
          tasks.filter fun t => decide ((t.locale, t.file_name) = key)) ∧
      group_tasks_into_batches tasks n =
        ((group_by_key tasks).map fun p => chunkList n p.2).flatten ∧
      (∀ p ∈ group_by_key tasks,
        (chunkList n p.2).flatten = p.2 ∧
          (∀ b ∈ (chunkList n p.2).dropLast, b.length = n)) ∧
      (∀ b ∈ group_tasks_into_batches tasks n,
        b ≠ [] ∧ b.length ≤ n ∧
          ∀ t ∈ b, ∀ t' ∈ b, (t.locale, t.file_name) = (t'.locale, t'.file_name)) ∧
      ((group_tasks_into_batches demoTasks 20).map List.length = [20, 20, 5] ∧
        (group_tasks_into_batches demoTasks 20).flatten = demoTasks) := by
  intro tasks n hn
  refine ⟨?_, batches_eq_flatten tasks n, ?_, ?_, by decide⟩
  · intro key
    unfold group_by_key
    rw [groupFold_find]
    simp [assocFind]
  · intro p hp
    exact ⟨chunkList_flatten n hn p.2, chunkList_dropLast n hn p.2⟩
  · intro b hb
    rw [batches_eq_flatten] at hb
    obtain ⟨s, hs, hbs⟩ := List.mem_flatten.mp hb
    obtain ⟨p, hp, rfl⟩ := List.mem_map.mp hs
    obtain ⟨hne, hlen⟩ := chunkList_mem n hn p.2 b hbs
    refine ⟨hne, hlen, ?_⟩
    have hsub : ∀ t ∈ b, t ∈ p.2 := by
      intro t ht
      rw [← chunkList_flatten n hn p.2]
      exact List.mem_flatten.mpr ⟨b, hbs, ht⟩
    intro t ht t' ht'
    rw [group_by_key_homog tasks p hp t (hsub t ht),
      group_by_key_homog tasks p hp t' (hsub t' ht')]

/-- C5 witness: the concrete 45-task example extracted through the
theorem. -/
theorem batching_spec_witness :
    (group_tasks_into_batches demoTasks 20).map List.length = [20, 20, 5] ∧
      (group_tasks_into_batches demoTasks 20).flatten = demoTasks :=
  (batching_spec demoTasks 20 (by decide)).2.2.2.2

/-! ## Lemmas about the translation engine -/

theorem processFold_preserves (attempt mr : Nat)
    (pairs : List (TranslationTask × (String × String)))
    (trip : String × String × String) (v : String)
    (hne : ∀ p ∈ pairs, cacheKey p.1 ≠ trip) :
    ∀ acc, assocFind trip acc.1.cache = some v →
      assocFind trip (pairs.foldl (processStep attempt mr) acc).1.cache = some v := by
  induction pairs with
  | nil => intro acc h; exact h
  | cons p pairs ih =>
    intro acc hacc
    rw [List.foldl_cons]
    apply ih fun q hq => hne q (List.mem_cons_of_mem p hq)
    unfold processStep
    simp only []
    have hne' : trip ≠ (p.1.locale, p.1.key, p.1.english_value) :=
      Ne.symm (hne p (List.mem_cons_self p pairs))
    split
    · exact hacc
    · show assocFind trip
        (assocSet acc.1.cache (p.1.locale, p.1.key, p.1.english_value) fun _ => p.2.2) = some v
      rw [assocFind_assocSet_ne acc.1.cache (p.1.locale, p.1.key, p.1.english_value) trip
        (fun _ => p.2.2) hne']
      exact hacc

theorem runAttempts_preserves (provider : Nat → ProviderResult)
    (uncached : List TranslationTask)
    (cachedResults : List (TranslationTask × String × ValidationResult)) (mr : Nat)
    (trip : String × String × String) (v : String)
    (hne : ∀ t ∈ uncached, cacheKey t ≠ trip) :
    ∀ (fuel attempt : Nat) (st : EngineState), assocFind trip st.cache = some v →
      assocFind trip
        ((runAttempts provider uncached cachedResults mr fuel attempt st).state).cache =
          some v := by
  intro fuel
  induction fuel with
  | zero => intro attempt st h; exact h
  | succ fuel ih =>
    intro attempt st h
    have hrun : runAttempts provider uncached cachedResults mr (fuel + 1) attempt st =
        match provider attempt with
        | .parsed items =>
          .ok (cachedResults ++ (processParsed st uncached items attempt mr).2)
            (processParsed st uncached items attempt mr).1 (attempt + 1)
        | .notParsed => runAttempts provider uncached cachedResults mr fuel (attempt + 1) st
        | .failure =>
          if attempt < mr - 1 then
            runAttempts provider uncached cachedResults mr fuel (attempt + 1) st
          else .error st (attempt + 1) := rfl
    rw [hrun]
    cases hp : provider attempt with
    | parsed items =>
      show assocFind trip (processParsed st uncached items attempt mr).1.cache = some v
      unfold processParsed
      apply processFold_preserves attempt mr _ trip v ?_ (st, []) h
      intro q hq
      have hq1 : q.1 ∈ uncached := (List.of_mem_zip (a := q.1) (b := q.2) hq).1
      exact hne q.1 hq1
    | notParsed =>
      show assocFind trip
        ((runAttempts provider uncached cachedResults mr fuel (attempt + 1) st).state).cache =
          some v
      exact ih (attempt + 1) st h
    | failure =>
      by_cases hlt : attempt < mr - 1
      · show assocFind trip
          ((if attempt < mr - 1 then
              runAttempts provider uncached cachedResults mr fuel (attempt + 1) st
            else .error st (attempt + 1)).state).cache = some v
        rw [if_pos hlt]
        exact ih (attempt + 1) st h
      · show assocFind trip
          ((if attempt < mr - 1 then
              runAttempts provider uncached cachedResults mr fuel (attempt + 1) st
            else .error st (attempt + 1)).state).cache = some v
        rw [if_neg hlt]
        exact h

/-- C8: the translation cache is monotonic — an entry present before a
batch keeps its value in the state after the batch, whatever the provider
does — and a batch whose tasks are all cache hits returns the cached
results with zero provider calls and an unchanged state, so a repeated
triple costs no further external call. -/
theorem cache_spec :
    ∀ (st : EngineState) (provider : Nat → ProviderResult) (tasks : List TranslationTask)
      (mr : Nat) (trip : String × String × String) (v : String),
      (assocFind trip st.cache = some v →
        assocFind trip ((translate_batch st provider tasks mr).state).cache = some v) ∧
      ((∀ t ∈ tasks, (assocFind (cacheKey t) st.cache).isSome) →
        translate_batch st provider tasks mr =
          .ok (tasks.filterMap fun t =>
              (assocFind (cacheKey t) st.cache).map fun tr =>
                (t, tr, validate_translation t tr))
            st 0) := by
  intro st provider tasks mr trip v
  constructor
  · intro h
    unfold translate_batch
    by_cases he : tasks.isEmpty
    · rw [if_pos he]
      exact h
    · rw [if_neg he]
      simp only []
      by_cases hu : (tasks.filter fun t => (assocFind (cacheKey t) st.cache).isNone).isEmpty
      · rw [if_pos hu]
        exact h
      · rw [if_neg hu]
        apply runAttempts_preserves provider _ _ mr trip v ?_ mr 0 st h
        intro t ht
        have hnone := (List.mem_filter.mp ht).2
        intro heq
        rw [heq, h] at hnone
        cases hnone
  · intro hall
    unfold translate_batch
    by_cases he : tasks.isEmpty
    · rw [if_pos he, List.isEmpty_iff.mp he]
      rfl
    · rw [if_neg he]
      simp only []
      have hu : (tasks.filter fun t => (assocFind (cacheKey t) st.cache).isNone).isEmpty := by
        rw [List.isEmpty_iff, List.filter_eq_nil_iff]
        intro t ht
        have hsome := hall t ht
        cases hfind : assocFind (cacheKey t) st.cache with
        | none => rw [hfind] at hsome; simp at hsome
        | some w => simp [hfind]
      rw [if_pos hu]

/-- C8 witness: a batch whose single task is already cached is answered
from the cache with zero provider calls and unchanged state, even with a
provider that would fail. -/
theorem cache_spec_witness :
    translate_batch ⟨[(("fr", "k", "Hello"), "Bonjour")]⟩ (fun _ => .failure)
        [mkTask "fr" "common.json" "k" "Hello" true] 3 =
      .ok [(mkTask "fr" "common.json" "k" "Hello" true, "Bonjour",
          validate_translation (mkTask "fr" "common.json" "k" "Hello" true) "Bonjour")]
        ⟨[(("fr", "k", "Hello"), "Bonjour")]⟩ 0 := by
  have h := (cache_spec ⟨[(("fr", "k", "Hello"), "Bonjour")]⟩ (fun _ => .failure)
    [mkTask "fr" "common.json" "k" "Hello" true] 3 ("fr", "k", "Hello") "Bonjour").2 (by decide)
  rw [h]
  rfl

/-- The concrete task of the retry-bug evaluation: its source text holds a
double-brace name placeholder that the returned translation drops. -/
def bugTask : TranslationTask :=
  mkTask "fr" "common.json" "hello" "Hello \x7b\x7bname\x7d\x7d!" true

/-- C3 evaluated at the failing input: the provider's first response (of
three allowed attempts) parses but drops the placeholder, so validation
fails with retries remaining. The code returns after a single provider
call with the invalid item silently dropped from the results and nothing
cached — the batch is never re-issued, contradicting the claimed
batch-granularity retry (the source's `continue` targets the inner
per-item loop, not the attempt loop, as its own retry comments intend).
When a parsed response first arrives on the final attempt, the invalid
result is returned to the caller as the claim states. -/
theorem retry_bug_eval :
    translate_batch ⟨[]⟩ (fun _ => .parsed [("hello", "Bonjour")]) [bugTask] 3 =
        .ok [] ⟨[]⟩ 1 ∧
      (validate_translation bugTask "Bonjour").is_valid = false ∧
      translate_batch ⟨[]⟩
          (fun attempt => if attempt < 2 then .failure else .parsed [("hello", "Bonjour")])
          [bugTask] 3 =
        .ok [(bugTask, "Bonjour", validate_translation bugTask "Bonjour")]
          ⟨[(("fr", "hello", "Hello \x7b\x7bname\x7d\x7d!"), "Bonjour")]⟩ 3 :=
  ⟨by decide, by decide, rfl⟩

end LocalePipeline
